import Mathlib

/-!
Verification of the PennyLane circuit-graph core and the Fourier
eigenvalue helper.

The repository excerpt ships the unit tests of `pennylane.circuit_graph`
together with `pennylane/fourier/utils.py`.  The `CircuitGraph` class
itself is not part of the excerpt, so the graph core below is modelled
from the specification (wire-dependency edge construction, ancestor and
descendant queries, wire indices, node replacement, parametrized layers),
while `extract_evals` is embedded directly from
`pennylane/fourier/utils.py`.

Wires are represented by their compact integer positions in the wire
index, and queue entities by their queue positions `0..n-1`.
-/

/-- Modelled from the spec: the operation/observable entity of the queue
(`pennylane.circuit_graph` is missing from the excerpt).  An entity
exposes its ordered wire list (as wire-index positions) and its parameter
slots; each slot is flagged `true` when it is a differentiable (trainable)
parameter.  The `name` field stands for the remaining payload so that
distinct gates are distinguishable values. -/
structure Op where
  name : String
  wires : List Nat
  params : List Bool
deriving DecidableEq, Inhabited

/-- Modelled from the spec: the state threaded through dependency-graph
construction, holding the per-wire most recent queue position
("last toucher") and the edge list accumulated so far. -/
structure BuildState where
  lastT : Nat → Option Nat
  edges : List (Nat × Nat)

def initState : BuildState := ⟨fun _ => none, []⟩

/-- Modelled from the spec: processing one wire `w` of the entity at queue
position `i`.  If a last toucher `j` exists for `w`, the edge `(j, i)` is
added (deduplicated), and in any case `w`'s last toucher becomes `i`. -/
def touchWire (st : BuildState) (i : Nat) (w : Nat) : BuildState :=
  let es :=
    match st.lastT w with
    | some j => if (j, i) ∈ st.edges then st.edges else st.edges ++ [(j, i)]
    | none => st.edges
  ⟨fun w' => if w' = w then some i else st.lastT w', es⟩

/-- Modelled from the spec: processing all wires of the entity at queue
position `i`, in their listed order. -/
def processOp (st : BuildState) (i : Nat) (ws : List Nat) : BuildState :=
  ws.foldl (fun s w => touchWire s i w) st

/-- Modelled from the spec: walking the remaining queue entities starting
at position `i`, threading the build state. -/
def buildFrom (st : BuildState) (i : Nat) : List Op → BuildState
  | [] => st
  | op :: rest => buildFrom (processOp st i op.wires) (i + 1) rest

/-- Modelled from the spec: the dependency-edge list of the combined
queue, produced by the last-toucher sweep of §4.1. -/
def buildEdges (queue : List Op) : List (Nat × Nat) :=
  (buildFrom initState 0 queue).edges

/-- Modelled from the spec: the built circuit graph — the combined queue
(operations then observables), the number of operations, and the
dependency edges over queue positions. -/
structure CircuitGraph where
  queue : List Op
  numOps : Nat
  edges : List (Nat × Nat)
deriving DecidableEq

/-- Modelled from the spec: graph construction from the operation and
observable queues. -/
def CircuitGraph.build (ops obs : List Op) : CircuitGraph :=
  ⟨ops ++ obs, ops.length, buildEdges (ops ++ obs)⟩

def CircuitGraph.operations (c : CircuitGraph) : List Op :=
  c.queue.take c.numOps

def CircuitGraph.observables (c : CircuitGraph) : List Op :=
  c.queue.drop c.numOps

/-- The nodes of the graph: one per queue entity, named by queue position. -/
def CircuitGraph.nodes (c : CircuitGraph) : List Nat :=
  List.range c.queue.length

/-- The single-step dependency relation of an edge list. -/
def edgeStep (E : List (Nat × Nat)) (a b : Nat) : Prop := (a, b) ∈ E

/-- Fuel-bounded reachability along dependency edges: intermediate nodes
range over `0..n-1` and the fuel bounds the path length. -/
def reachesWithin (E : List (Nat × Nat)) (n : Nat) : Nat → Nat → Nat → Bool
  | 0, _, _ => false
  | fuel + 1, a, b =>
      decide ((a, b) ∈ E) ||
        (List.range n).any fun c => decide ((a, c) ∈ E) && reachesWithin E n fuel c b

/-- Reachability with enough fuel to cover any simple path. -/
def reachableB (E : List (Nat × Nat)) (n : Nat) (a b : Nat) : Bool :=
  reachesWithin E n n a b

/-- Modelled from the spec: `ancestors` — all nodes with a directed path
to some node of `S`, excluding the members of `S`, in queue order. -/
def ancestorsSet (E : List (Nat × Nat)) (n : Nat) (S : List Nat) : List Nat :=
  (List.range n).filter fun a => decide (a ∉ S) && S.any fun s => reachableB E n a s

/-- Modelled from the spec: `descendants` — all nodes reachable from some
node of `S`, excluding the members of `S`, in queue order. -/
def descendantsSet (E : List (Nat × Nat)) (n : Nat) (S : List Nat) : List Nat :=
  (List.range n).filter fun a => decide (a ∉ S) && S.any fun s => reachableB E n s a

/-- Modelled from the spec: `wire_indices` — the queue positions of the
entities whose wire set includes `w`, in queue order. -/
def wire_indices (queue : List Op) (w : Nat) : List Nat :=
  (List.range queue.length).filter fun i => decide (w ∈ (queue.getD i default).wires)

/-- First index of a queue element satisfying `p` (reference-identity
lookup of the arena model). -/
def idxOf? (p : Op → Bool) : List Op → Option Nat
  | [] => none
  | a :: l => if p a then some 0 else (idxOf? p l).map (· + 1)

/-- Modelled from the spec: `update_node old new` — replaces the payload
at `old`'s queue position with `new`, keeping the position (`queue_idx`)
and the whole edge set; a not-found error is raised when `old` is not a
current node. -/
def update_node (c : CircuitGraph) (old new : Op) : Except String CircuitGraph :=
  match idxOf? (fun x => decide (x = old)) c.queue with
  | some i => .ok ⟨c.queue.set i new, c.numOps, c.edges⟩
  | none => .error "CircuitGraph.update_node: node to update is not in the graph"

/-- The reference operations fixture: RX, RY, RZ, CNOT(0,1), Hadamard,
CNOT(2,0), PauliX on wires 0..2. -/
def refOps : List Op :=
  [⟨"RX", [0], [true]⟩, ⟨"RY", [1], [true]⟩, ⟨"RZ", [2], [true]⟩,
   ⟨"CNOT", [0, 1], []⟩, ⟨"Hadamard", [2], []⟩, ⟨"CNOT", [2, 0], []⟩,
   ⟨"PauliX", [1], []⟩]

/-- The reference observables fixture: expval(PauliX(0)) and
expval(Hermitian on wires 1,2). -/
def refObs : List Op :=
  [⟨"expval PauliX", [0], []⟩, ⟨"expval Hermitian", [1, 2], []⟩]

def refQueue : List Op := refOps ++ refObs

def refCircuit : CircuitGraph := CircuitGraph.build refOps refObs

/-- Modelled from the spec: a parametrized layer — the queue positions of
its operations and the flattened parameter indices they contribute, both
in queue order. -/
structure Layer where
  ops : List Nat
  param_inds : List Nat
deriving DecidableEq

/-- The flattened global parameter offset of queue position `i`: the
number of parameter slots contributed by all earlier queue entities. -/
def paramOffset (queue : List Op) (i : Nat) : Nat :=
  (((queue.take i).map fun o => o.params.length).sum)

/-- The flattened indices of the differentiable (trainable) parameters of
the entity at queue position `i`; non-differentiable slots are skipped
but still advance the global counter. -/
def trainableInds (queue : List Op) (i : Nat) : List Nat :=
  (((queue.getD i default).params.enum.filter fun p => p.2).map
    fun p => paramOffset queue i + p.1)

/-- Modelled from the spec: the ordered list of parametrized operations —
operation positions (observables excluded) carrying at least one
differentiable parameter — paired with their flattened trainable
parameter indices. -/
def parametrizedOps (queue : List Op) (numOps : Nat) : List (Nat × List Nat) :=
  (((List.range numOps).map fun i => (i, trainableInds queue i)).filter
    fun p => !p.2.isEmpty)

/-- Modelled from the spec: inserting one parametrized operation into the
layer list (kept reversed, currently open layer at the head).  The
operation joins the open layer unless some member of that layer has a
direct or transitive dependency path to it, in which case it starts a new
layer. -/
def insertOp (E : List (Nat × Nat)) (n : Nat) (layers : List Layer)
    (i : Nat) (inds : List Nat) : List Layer :=
  match layers with
  | [] => [⟨[i], inds⟩]
  | cur :: rest =>
      if cur.ops.any fun m => reachableB E n m i then
        ⟨[i], inds⟩ :: cur :: rest
      else
        ⟨cur.ops ++ [i], cur.param_inds ++ inds⟩ :: rest

/-- Modelled from the spec: `parametrized_layers` — walk the parametrized
operations in queue order, grouping mutually independent ones. -/
def parametrized_layers (queue : List Op) (numOps : Nat) : List Layer :=
  (((parametrizedOps queue numOps).foldl
      (fun ls p => insertOp (buildEdges queue) queue.length ls p.1 p.2) []).reverse)

/-- Modelled from the spec: the 4-tuple reported for one layer —
`(preceding_ops, layer_ops, param_inds, succeeding_ops)`, the outer sets
being the ancestor/descendant unions of the layer minus the layer
itself. -/
def layerTuple (E : List (Nat × Nat)) (n : Nat) (l : Layer) :
    List Nat × List Nat × List Nat × List Nat :=
  (ancestorsSet E n l.ops, l.ops, l.param_inds, descendantsSet E n l.ops)

/-- Modelled from the spec: `iterate_parametrized_layers` — one 4-tuple
per parametrized layer, in layer order. -/
def iterate_parametrized_layers (queue : List Op) (numOps : Nat) :
    List (List Nat × List Nat × List Nat × List Nat) :=
  (parametrized_layers queue numOps).map (layerTuple (buildEdges queue) queue.length)

/-- The 6-parameter, 3-layer reference circuit: Rotation(a), Rotation(b),
Rotation(c), Beamsplitter(d, 1), Rotation(1), Rotation(e), Rotation(f) on
the three wires, the literal arguments being non-differentiable. -/
def refPOps : List Op :=
  [⟨"Rotation a", [0], [true]⟩, ⟨"Rotation b", [1], [true]⟩,
   ⟨"Rotation c", [2], [true]⟩, ⟨"Beamsplitter", [0, 1], [true, false]⟩,
   ⟨"Rotation 1", [0], [false]⟩, ⟨"Rotation e", [1], [true]⟩,
   ⟨"Rotation f", [2], [true]⟩]

/-- The observables of the reference parametrized circuit: a
NumberOperator expectation per wire. -/
def refPObs : List Op :=
  [⟨"expval N0", [0], []⟩, ⟨"expval N1", [1], []⟩, ⟨"expval N2", [2], []⟩]

def refPQueue : List Op := refPOps ++ refPObs

/-- The generator of an operation, exposing its `matrix` payload
(`gen.matrix` in `pennylane/fourier/utils.py`). -/
structure Generator (α : Type) where
  matrix : List (List α)

/-- An object whose `generator` attribute yields a `(gen, coeff)` pair,
as consumed by `extract_evals`. -/
structure GenObj (α : Type) where
  generator : Generator α × α

/-- Elementwise scalar multiplication of a matrix, `coeff * gen.matrix`. -/
def scaleMatrix {α : Type} [Mul α] (c : α) (m : List (List α)) : List (List α) :=
  m.map fun row => row.map fun x => c * x

/-- Shallow embedding of `extract_evals` from
`pennylane/fourier/utils.py`.  `eigvals` stands for the external
`np.linalg.eigvals` routine, producing complex eigenvalues as
`(re, im)` pairs; the function keeps the real parts (`np.real`) and
returns them together with their elementwise negation. -/
def extract_evals {α : Type} [Mul α] [Neg α]
    (eigvals : List (List α) → List (α × α)) (obj : GenObj α) : List (List α) :=
  let gen := obj.generator.1
  let coeff := obj.generator.2
  let evals := (eigvals (scaleMatrix coeff gen.matrix)).map Prod.fst
  [evals, evals.map Neg.neg]

/-- A square matrix: every row is as long as the list of rows. -/
def isSquare {α : Type} (m : List (List α)) : Prop :=
  ∀ row ∈ m, row.length = m.length

instance {α : Type} (m : List (List α)) : Decidable (isSquare m) :=
  List.decidableBAll _ m

/-- Queue position `j` holds an entity whose wire set includes `w`. -/
def WireAt (queue : List Op) (w j : Nat) : Prop :=
  ∃ op, queue.get? j = some op ∧ w ∈ op.wires

/-- The invariant of the build sweep before processing position `i`. -/
structure BuildInv (queue : List Op) (i : Nat) (st : BuildState) : Prop where
  last_lt : ∀ w j, st.lastT w = some j → j < i
  last_wire : ∀ w j, st.lastT w = some j → WireAt queue w j
  edge_lt : ∀ p ∈ st.edges, p.1 < p.2
  edge_ub : ∀ p ∈ st.edges, p.2 < i
  edge_wire : ∀ p ∈ st.edges, ∃ w, WireAt queue w p.1 ∧ WireAt queue w p.2

/-- The invariant in the middle of processing the entity `op` at position
`i`, after the wires in `done` have been handled. -/
structure BuildMidInv (queue : List Op) (i : Nat) (done : List Nat)
    (st : BuildState) : Prop where
  last : ∀ w j, st.lastT w = some j → (j < i ∧ WireAt queue w j) ∨ (j = i ∧ w ∈ done)
  edge_lt : ∀ p ∈ st.edges, p.1 < p.2
  edge_ub : ∀ p ∈ st.edges, p.2 < i + 1
  edge_wire : ∀ p ∈ st.edges, ∃ w, WireAt queue w p.1 ∧ WireAt queue w p.2

lemma touchWire_mid {queue : List Op} {i : Nat} {op : Op}
    (hop : queue.get? i = some op) {done : List Nat} {st : BuildState}
    (h : BuildMidInv queue i done st) {w : Nat} (hw : w ∈ op.wires) (hwd : w ∉ done) :
    BuildMidInv queue i (done ++ [w]) (touchWire st i w) := by
  constructor
  · intro w' j hj
    simp only [touchWire] at hj
    by_cases hww : w' = w
    · simp [hww] at hj
      subst hww hj
      exact Or.inr ⟨rfl, by simp⟩
    · simp [hww] at hj
      rcases h.last w' j hj with h1 | h2
      · exact Or.inl h1
      · exact Or.inr ⟨h2.1, by simp [h2.2]⟩
  all_goals
    intro p hp
    simp only [touchWire] at hp
    rcases hl : st.lastT w with _ | j
  · exact h.edge_lt p (by simpa [hl] using hp)
  · simp only [hl] at hp
    by_cases hmem : (j, i) ∈ st.edges
    · exact h.edge_lt p (by simpa [hmem] using hp)
    · simp [hmem] at hp
      rcases hp with hp | hp
      · exact h.edge_lt p hp
      · subst hp
        rcases h.last w j hl with h1 | h2
        · exact h1.1
        · exact absurd h2.2 hwd
  · exact h.edge_ub p (by simpa [hl] using hp)
  · simp only [hl] at hp
    by_cases hmem : (j, i) ∈ st.edges
    · exact h.edge_ub p (by simpa [hmem] using hp)
    · simp [hmem] at hp
      rcases hp with hp | hp
      · exact h.edge_ub p hp
      · subst hp; omega
  · exact h.edge_wire p (by simpa [hl] using hp)
  · simp only [hl] at hp
    by_cases hmem : (j, i) ∈ st.edges
    · exact h.edge_wire p (by simpa [hmem] using hp)
    · simp [hmem] at hp
      rcases hp with hp | hp
      · exact h.edge_wire p hp
      · subst hp
        rcases h.last w j hl with h1 | h2
        · exact ⟨w, h1.2, op, hop, hw⟩
        · exact absurd h2.2 hwd

lemma processWires_mid {queue : List Op} {i : Nat} {op : Op}
    (hop : queue.get? i = some op) :
    ∀ ws done st, (∀ w ∈ ws, w ∈ op.wires) → (∀ w ∈ ws, w ∉ done) → ws.Nodup →
      BuildMidInv queue i done st →
      BuildMidInv queue i (done ++ ws) (ws.foldl (fun s w => touchWire s i w) st)
  | [], done, st, _, _, _, h => by simpa using h
  | w :: ws, done, st, hsub, hdis, hnd, h => by
    have hstep : BuildMidInv queue i (done ++ [w]) (touchWire st i w) :=
      touchWire_mid hop h (hsub w (by simp)) (hdis w (by simp))
    have hrec := processWires_mid hop ws (done ++ [w]) (touchWire st i w)
      (fun x hx => hsub x (by simp [hx]))
      (fun x hx => by
        simp only [List.mem_append, List.mem_singleton]
        rintro (hxd | rfl)
        · exact hdis x (by simp [hx]) hxd
        · exact (List.nodup_cons.mp hnd).1 hx)
      (List.nodup_cons.mp hnd).2 hstep
    simpa [List.append_assoc] using hrec

lemma processOp_inv {queue : List Op} {i : Nat} {op : Op}
    (hop : queue.get? i = some op) (hnd : op.wires.Nodup)
    {st : BuildState} (h : BuildInv queue i st) :
    BuildInv queue (i + 1) (processOp st i op.wires) := by
  have hmid : BuildMidInv queue i [] st :=
    ⟨fun w j hj => Or.inl ⟨h.last_lt w j hj, h.last_wire w j hj⟩,
     h.edge_lt, fun p hp => Nat.lt_succ_of_lt (h.edge_ub p hp), h.edge_wire⟩
  have hres := processWires_mid hop op.wires [] st
    (fun _ hw => hw) (fun _ _ => List.not_mem_nil _) hnd hmid
  refine ⟨?_, ?_, hres.edge_lt, hres.edge_ub, hres.edge_wire⟩
  · intro w j hj
    rcases hres.last w j hj with h1 | h2
    · omega
    · omega
  · intro w j hj
    rcases hres.last w j hj with h1 | h2
    · exact h1.2
    · exact h2.1 ▸ ⟨op, hop, by simpa using h2.2⟩

lemma buildFrom_inv {queue : List Op} (hnd : ∀ op ∈ queue, op.wires.Nodup) :
    ∀ rest i st, (∀ k, rest.get? k = queue.get? (i + k)) →
      BuildInv queue i st → BuildInv queue (i + rest.length) (buildFrom st i rest)
  | [], i, st, _, h => by simpa using h
  | op :: rest, i, st, hrel, h => by
    have hop : queue.get? i = some op := by simpa using (hrel 0).symm
    have hmem : op ∈ queue := List.get?_mem hop
    have h1 : BuildInv queue (i + 1) (processOp st i op.wires) :=
      processOp_inv hop (hnd op hmem) h
    have hrel' : ∀ k, rest.get? k = queue.get? ((i + 1) + k) := by
      intro k
      have := hrel (k + 1)
      simpa [Nat.add_assoc, Nat.add_comm 1 k] using this
    have hres := buildFrom_inv hnd rest (i + 1) (processOp st i op.wires) hrel' h1
    have hlen : (i + 1) + rest.length = i + (op :: rest).length := by
      simp; omega
    rw [hlen] at hres
    exact hres

/-- Every edge of the built graph goes from an earlier queue position to a
later one, stays inside the queue, and joins two entities sharing a wire. -/
lemma buildEdges_spec {queue : List Op} (hnd : ∀ op ∈ queue, op.wires.Nodup) :
    ∀ p ∈ buildEdges queue, p.1 < p.2 ∧ p.2 < queue.length ∧
      ∃ w, WireAt queue w p.1 ∧ WireAt queue w p.2 := by
  have h0 : BuildInv queue 0 initState :=
    ⟨fun w j hj => by simp [initState] at hj,
     fun w j hj => by simp [initState] at hj,
     fun p hp => by simp [initState] at hp,
     fun p hp => by simp [initState] at hp,
     fun p hp => by simp [initState] at hp⟩
  have hres := buildFrom_inv hnd queue 0 initState (fun k => by simp) h0
  intro p hp
  have hp' : p ∈ (buildFrom initState 0 queue).edges := hp
  exact ⟨hres.edge_lt p hp', by simpa using hres.edge_ub p hp', hres.edge_wire p hp'⟩

lemma transGen_bounds {E : List (Nat × Nat)} {n : Nat}
    (HE : ∀ p ∈ E, p.1 < p.2 ∧ p.2 < n) {a b : Nat}
    (h : Relation.TransGen (edgeStep E) a b) : a < b ∧ b < n := by
  induction h with
  | single h1 => exact ⟨(HE _ h1).1, (HE _ h1).2⟩
  | tail h1 h2 ih => exact ⟨lt_trans ih.1 (HE _ h2).1, (HE _ h2).2⟩

lemma reachesWithin_sound {E : List (Nat × Nat)} {n : Nat} :
    ∀ fuel a b, reachesWithin E n fuel a b = true →
      Relation.TransGen (edgeStep E) a b := by
  intro fuel
  induction fuel with
  | zero => intro a b h; simp [reachesWithin] at h
  | succ f ih =>
    intro a b h
    simp only [reachesWithin, Bool.or_eq_true, decide_eq_true_eq,
      List.any_eq_true, List.mem_range, Bool.and_eq_true] at h
    rcases h with h | ⟨c, _, hac, hr⟩
    · exact Relation.TransGen.single h
    · exact Relation.TransGen.head hac (ih c b hr)

lemma reachesWithin_complete {E : List (Nat × Nat)} {n : Nat}
    (HE : ∀ p ∈ E, p.1 < p.2 ∧ p.2 < n) {a b : Nat}
    (h : Relation.TransGen (edgeStep E) a b) :
    ∀ fuel, b ≤ a + fuel → reachesWithin E n fuel a b = true := by
  induction h using Relation.TransGen.head_induction_on with
  | base h1 =>
    intro fuel hf
    have hab : _ < b := (HE _ h1).1
    match fuel with
    | 0 => omega
    | f + 1 =>
      simp only [reachesWithin, Bool.or_eq_true, decide_eq_true_eq]
      exact Or.inl h1
  | ih h1 h2 ih =>
    intro fuel hf
    have hac := (HE _ h1).1
    have hcb := (transGen_bounds HE h2).1
    have hcn := (HE _ h1).2
    match fuel with
    | 0 => omega
    | f + 1 =>
      simp only [reachesWithin, Bool.or_eq_true, decide_eq_true_eq,
        List.any_eq_true, List.mem_range, Bool.and_eq_true]
      exact Or.inr ⟨_, hcn, h1, ih f (by omega)⟩

/-- With fuel `n`, the fuel-bounded search decides transitive
reachability, provided all edges increase and stay below `n`. -/
lemma reachableB_iff {E : List (Nat × Nat)} {n : Nat}
    (HE : ∀ p ∈ E, p.1 < p.2 ∧ p.2 < n) {a b : Nat} :
    reachableB E n a b = true ↔ Relation.TransGen (edgeStep E) a b := by
  constructor
  · exact reachesWithin_sound n a b
  · intro h
    have hb := transGen_bounds HE h
    exact reachesWithin_complete HE h n (by omega)

/-- Membership in `ancestorsSet`: exactly the nodes outside `S` with a
directed path into `S`. -/
lemma mem_ancestorsSet {E : List (Nat × Nat)} {n : Nat}
    (HE : ∀ p ∈ E, p.1 < p.2 ∧ p.2 < n) {S : List Nat} {a : Nat} :
    a ∈ ancestorsSet E n S ↔
      a ∉ S ∧ ∃ s ∈ S, Relation.TransGen (edgeStep E) a s := by
  simp only [ancestorsSet, List.mem_filter, List.mem_range, Bool.and_eq_true,
    decide_eq_true_eq, List.any_eq_true]
  constructor
  · rintro ⟨_, hnot, s, hs, hr⟩
    exact ⟨hnot, s, hs, (reachableB_iff HE).mp hr⟩
  · rintro ⟨hnot, s, hs, hr⟩
    have h1 := transGen_bounds HE hr
    exact ⟨by omega, hnot, s, hs, (reachableB_iff HE).mpr hr⟩

/-- Membership in `descendantsSet`: exactly the nodes outside `S`
reachable from `S`. -/
lemma mem_descendantsSet {E : List (Nat × Nat)} {n : Nat}
    (HE : ∀ p ∈ E, p.1 < p.2 ∧ p.2 < n) {S : List Nat} {a : Nat} :
    a ∈ descendantsSet E n S ↔
      a ∉ S ∧ ∃ s ∈ S, Relation.TransGen (edgeStep E) s a := by
  simp only [descendantsSet, List.mem_filter, List.mem_range, Bool.and_eq_true,
    decide_eq_true_eq, List.any_eq_true]
  constructor
  · rintro ⟨_, hnot, s, hs, hr⟩
    exact ⟨hnot, s, hs, (reachableB_iff HE).mp hr⟩
  · rintro ⟨hnot, s, hs, hr⟩
    have h1 := transGen_bounds HE hr
    exact ⟨h1.2, hnot, s, hs, (reachableB_iff HE).mpr hr⟩

/-- The built edges of a well-formed queue increase and stay below the
queue length. -/
lemma buildEdges_bounds {queue : List Op} (hnd : ∀ op ∈ queue, op.wires.Nodup) :
    ∀ p ∈ buildEdges queue, p.1 < p.2 ∧ p.2 < queue.length :=
  fun p hp => ⟨(buildEdges_spec hnd p hp).1, (buildEdges_spec hnd p hp).2.1⟩

lemma idxOf?_some {p : Op → Bool} :
    ∀ {l : List Op} {i : Nat}, idxOf? p l = some i →
      ∃ a, l.get? i = some a ∧ p a = true
  | [], _, h => by simp [idxOf?] at h
  | a :: l, i, h => by
    by_cases hp : p a
    · simp [idxOf?, hp] at h
      exact h ▸ ⟨a, rfl, hp⟩
    · simp [idxOf?, hp] at h
      obtain ⟨j, hj, rfl⟩ := h
      obtain ⟨b, hb, hpb⟩ := idxOf?_some hj
      exact ⟨b, by simpa using hb, hpb⟩

lemma idxOf?_none {old : Op} :
    ∀ {l : List Op}, old ∉ l → idxOf? (fun x => decide (x = old)) l = none
  | [], _ => rfl
  | a :: l, h => by
    have ha : ¬(a = old) := fun e => h (by simp [e])
    have hl : old ∉ l := fun hm => h (by simp [hm])
    simp [idxOf?, ha, idxOf?_none hl]

lemma getD_of_get? {queue : List Op} {i : Nat} {op : Op}
    (h : queue.get? i = some op) : queue.getD i default = op := by
  have h' : queue[i]? = some op := by simpa [List.get?_eq_getElem?] using h
  simp [List.getD_eq_getD_get?, h']

/-- Claim C1: for every circuit the graph has one node per queue entity,
so the node count is `len(operations) + len(observables)`; on the
reference scenario the graph has exactly 9 nodes and exactly the 9 edges
`{(0,3),(1,3),(2,4),(3,5),(3,6),(4,5),(5,7),(5,8),(6,8)}` over queue
indices 0-8. -/
theorem claim_C1_nodes_and_edges :
    (∀ ops obs : List Op,
      (CircuitGraph.build ops obs).nodes.length = ops.length + obs.length) ∧
    refCircuit.nodes.length = 9 ∧
    refCircuit.edges.length = 9 ∧
    refCircuit.edges.toFinset =
      ({(0,3),(1,3),(2,4),(3,5),(3,6),(4,5),(5,7),(5,8),(6,8)} :
        Finset (Nat × Nat)) := by
  refine ⟨?_, by decide, by decide, by decide⟩
  intro ops obs
  simp [CircuitGraph.build, CircuitGraph.nodes]

/-- Claim C2: every edge `(j, i)` of the built dependency graph satisfies
`j < i` in queue order, so the graph is acyclic by construction, and the
only mutator of the core, `update_node`, never changes the edge set. -/
theorem claim_C2_edges_increase :
    (∀ queue : List Op, (∀ op ∈ queue, op.wires.Nodup) →
      ∀ p ∈ buildEdges queue, p.1 < p.2) ∧
    (∀ (c : CircuitGraph) (old new : Op) (c' : CircuitGraph),
      update_node c old new = Except.ok c' → c'.edges = c.edges) := by
  constructor
  · intro queue hnd p hp
    exact (buildEdges_spec hnd p hp).1
  · intro c old new c' h
    unfold update_node at h
    rcases hidx : idxOf? (fun x => decide (x = old)) c.queue with _ | i
    · simp [hidx] at h
    · simp [hidx] at h
      exact h ▸ rfl

/-- Claim C2 witness: the hypotheses hold on the reference circuit and a
concrete successful node replacement. -/
theorem claim_C2_witness :
    (0 : Nat) < 3 ∧
      (CircuitGraph.mk (refQueue.set 0 ⟨"RX", [0], [false]⟩) 7
        refCircuit.edges).edges = refCircuit.edges :=
  ⟨claim_C2_edges_increase.1 refQueue (by decide) (0, 3) (by decide),
   claim_C2_edges_increase.2 refCircuit ⟨"RX", [0], [true]⟩ ⟨"RX", [0], [false]⟩
     ⟨refQueue.set 0 ⟨"RX", [0], [false]⟩, 7, refCircuit.edges⟩ (by rfl)⟩

/-- Claim C3: on the 6-parameter, 3-layer reference circuit,
`parametrized_layers` returns exactly three layers in queue order: layer 0
holds the operations at queue positions 0, 1, 2 with flattened parameter
indices [0, 1, 2], layer 1 holds position 3 with [3], and layer 2 holds
positions 5 and 6 with [6, 7] — the indices skip the non-differentiable
intermediate parameters, the ops of each layer keep queue order, and the
param_inds follow the contributing operations. -/
theorem claim_C3_reference_layers :
    parametrized_layers refPQueue 7 =
      [⟨[0, 1, 2], [0, 1, 2]⟩, ⟨[3], [3]⟩, ⟨[5, 6], [6, 7]⟩] ∧
    (parametrized_layers refPQueue 7).length = 3 := by
  exact ⟨by decide, by decide⟩

/-- Claim C6: `wire_indices w` lists, in strictly increasing queue order,
exactly the queue positions of the entities whose wire set includes `w`;
on the reference scenario it yields [0,3,5,7] for wire 0, [1,3,6,8] for
wire 1 and [2,4,5,8] for wire 2. -/
theorem claim_C6_wire_indices :
    (∀ (queue : List Op) (w : Nat),
      List.Pairwise (· < ·) (wire_indices queue w) ∧
      ∀ i, (i ∈ wire_indices queue w ↔
        ∃ op, queue.get? i = some op ∧ w ∈ op.wires)) ∧
    wire_indices refQueue 0 = [0, 3, 5, 7] ∧
    wire_indices refQueue 1 = [1, 3, 6, 8] ∧
    wire_indices refQueue 2 = [2, 4, 5, 8] := by
  refine ⟨?_, by decide, by decide, by decide⟩
  intro queue w
  constructor
  · exact List.Pairwise.sublist (List.filter_sublist _) (List.pairwise_lt_range _)
  · intro i
    simp only [wire_indices, List.mem_filter, List.mem_range, decide_eq_true_eq]
    constructor
    · rintro ⟨hlt, hw⟩
      refine ⟨queue.getD i default, ?_, hw⟩
      rw [List.getD_eq_getElem _ _ hlt]
      simp [List.get?_eq_getElem?, List.getElem?_eq_getElem, hlt]
    · rintro ⟨op, hop, hw⟩
      have hlt : i < queue.length := (List.get?_eq_some.mp hop).1
      exact ⟨hlt, by rw [getD_of_get? hop]; exact hw⟩

/-- Claim C9: entities with disjoint wire sets never receive an edge in
either direction; in particular two single-wire operations on different
wires build a graph with 2 nodes and no edges. -/
theorem claim_C9_disjoint_wires :
    (∀ queue : List Op, (∀ op ∈ queue, op.wires.Nodup) →
      ∀ i j opi opj, queue.get? i = some opi → queue.get? j = some opj →
        (∀ w ∈ opi.wires, w ∉ opj.wires) →
        (i, j) ∉ buildEdges queue ∧ (j, i) ∉ buildEdges queue) ∧
    buildEdges [⟨"RX", [0], [true]⟩, ⟨"RY", [1], [true]⟩] = [] ∧
    (CircuitGraph.build [⟨"RX", [0], [true]⟩, ⟨"RY", [1], [true]⟩] []).nodes.length = 2 := by
  refine ⟨?_, by decide, by decide⟩
  intro queue hnd i j opi opj hi hj hdis
  constructor
  · intro hmem
    obtain ⟨w, ⟨oa, ha, hwa⟩, ⟨ob, hb, hwb⟩⟩ := (buildEdges_spec hnd _ hmem).2.2
    rw [hi] at ha
    rw [hj] at hb
    cases Option.some.inj ha
    cases Option.some.inj hb
    exact hdis w hwa hwb
  · intro hmem
    obtain ⟨w, ⟨oa, ha, hwa⟩, ⟨ob, hb, hwb⟩⟩ := (buildEdges_spec hnd _ hmem).2.2
    rw [hj] at ha
    rw [hi] at hb
    cases Option.some.inj ha
    cases Option.some.inj hb
    exact hdis w hwb hwa

/-- Claim C9 witness: the disjointness hypothesis holds for the RX/RY pair
of the reference scenario, so neither edge exists there. -/
theorem claim_C9_witness : ((0, 1) ∉ buildEdges refQueue) :=
  (claim_C9_disjoint_wires.1 refQueue (by decide) 0 1
    ⟨"RX", [0], [true]⟩ ⟨"RY", [1], [true]⟩ (by decide) (by decide) (by decide)).1

/-- Claim C5: for every well-formed circuit, `ancestors(S)` contains
exactly the nodes with a directed path to some node of `S`, excluding the
members of `S`, and `descendants(S)` symmetrically the nodes reachable
from `S` excluding `S`; on the reference scenario `ancestors({6})` is
exactly `{0, 1, 3}` and `descendants({6})` is exactly `{8}`. -/
theorem claim_C5_ancestors_descendants :
    (∀ queue : List Op, (∀ op ∈ queue, op.wires.Nodup) →
      ∀ (S : List Nat) (a : Nat),
        (a ∈ ancestorsSet (buildEdges queue) queue.length S ↔
          a ∉ S ∧ ∃ s ∈ S, Relation.TransGen (edgeStep (buildEdges queue)) a s) ∧
        (a ∈ descendantsSet (buildEdges queue) queue.length S ↔
          a ∉ S ∧ ∃ s ∈ S, Relation.TransGen (edgeStep (buildEdges queue)) s a)) ∧
    ancestorsSet (buildEdges refQueue) 9 [6] = [0, 1, 3] ∧
    descendantsSet (buildEdges refQueue) 9 [6] = [8] := by
  refine ⟨?_, by decide, by decide⟩
  intro queue hnd S a
  exact ⟨mem_ancestorsSet (buildEdges_bounds hnd),
    mem_descendantsSet (buildEdges_bounds hnd)⟩

/-- Claim C5 witness: the path characterization instantiated on the
reference scenario at node 3 against the set {6}. -/
theorem claim_C5_witness :
    (3 ∈ ancestorsSet (buildEdges refQueue) 9 [6] ↔
      3 ∉ [6] ∧ ∃ s ∈ [6], Relation.TransGen (edgeStep (buildEdges refQueue)) 3 s) :=
  ((claim_C5_ancestors_descendants.1 refQueue (by decide)) [6] 3).1

/-- Claim C4: `iterate_parametrized_layers` yields exactly one 4-tuple
`(preceding_ops, layer_ops, param_inds, succeeding_ops)` per parametrized
layer, the outer components being the causal ancestor/descendant unions
of the layer with the layer's own members excluded; on the 3-layer
reference circuit it yields exactly the tuples of the reference test. -/
theorem claim_C4_iterate_layers :
    (∀ (queue : List Op) (nOps : Nat), (∀ op ∈ queue, op.wires.Nodup) →
      (iterate_parametrized_layers queue nOps).length =
        (parametrized_layers queue nOps).length ∧
      (∀ k, (iterate_parametrized_layers queue nOps).get? k =
        ((parametrized_layers queue nOps).get? k).map
          (layerTuple (buildEdges queue) queue.length)) ∧
      (∀ (l : Layer) (a : Nat),
        (a ∈ (layerTuple (buildEdges queue) queue.length l).1 ↔
          a ∉ l.ops ∧ ∃ s ∈ l.ops,
            Relation.TransGen (edgeStep (buildEdges queue)) a s) ∧
        (a ∈ (layerTuple (buildEdges queue) queue.length l).2.2.2 ↔
          a ∉ l.ops ∧ ∃ s ∈ l.ops,
            Relation.TransGen (edgeStep (buildEdges queue)) s a))) ∧
    iterate_parametrized_layers refPQueue 7 =
      [([], [0, 1, 2], [0, 1, 2], [3, 4, 5, 6, 7, 8, 9]),
       ([0, 1], [3], [3], [4, 5, 7, 8]),
       ([0, 1, 2, 3], [5, 6], [6, 7], [8, 9])] := by
  refine ⟨?_, by decide⟩
  intro queue nOps hnd
  refine ⟨by simp [iterate_parametrized_layers], ?_, ?_⟩
  · intro k
    simp [iterate_parametrized_layers, List.get?_eq_getElem?, List.getElem?_map]
  · intro l a
    exact ⟨mem_ancestorsSet (buildEdges_bounds hnd),
      mem_descendantsSet (buildEdges_bounds hnd)⟩

/-- Claim C4 witness: the per-layer tuple count instantiated on the
reference parametrized circuit. -/
theorem claim_C4_witness :
    (iterate_parametrized_layers refPQueue 7).length =
      (parametrized_layers refPQueue 7).length :=
  (claim_C4_iterate_layers.1 refPQueue 7 (by decide)).1

/-- Claim C7: a successful `update_node old new` places `new` at `old`'s
original queue position (so `new` inherits `old`'s `queue_idx`), keeps
the edge set and the operation count untouched, and leaves every other
queue slot unchanged. -/
theorem claim_C7_update_node :
    ∀ (c : CircuitGraph) (old nop : Op) (i : Nat),
      idxOf? (fun x => decide (x = old)) c.queue = some i →
      update_node c old nop =
        Except.ok ⟨c.queue.set i nop, c.numOps, c.edges⟩ ∧
      c.queue.get? i = some old ∧
      (c.queue.set i nop).get? i = some nop ∧
      (∀ j, j ≠ i → (c.queue.set i nop).get? j = c.queue.get? j) := by
  intro c old nop i h
  obtain ⟨a, ha, hpa⟩ := idxOf?_some h
  have hao : a = old := by simpa using hpa
  subst hao
  have hlt : i < c.queue.length := (List.get?_eq_some.mp ha).1
  refine ⟨?_, ha, ?_, ?_⟩
  · unfold update_node
    rw [h]
  · rw [List.get?_eq_getElem?]
    exact List.getElem?_set_eq_of_lt _ hlt
  · intro j hj
    rw [List.get?_eq_getElem?, List.get?_eq_getElem?]
    exact List.getElem?_set_ne (fun e => hj e.symm)

/-- Claim C7 witness: replacing the RX gate of the reference circuit. -/
theorem claim_C7_witness :
    update_node refCircuit ⟨"RX", [0], [true]⟩ ⟨"RX", [0], [false]⟩ =
      Except.ok ⟨refQueue.set 0 ⟨"RX", [0], [false]⟩, 7, refCircuit.edges⟩ ∧
    (refQueue.set 0 ⟨"RX", [0], [false]⟩).get? 1 = refQueue.get? 1 :=
  ⟨(claim_C7_update_node refCircuit ⟨"RX", [0], [true]⟩ ⟨"RX", [0], [false]⟩ 0
      (by decide)).1,
   (claim_C7_update_node refCircuit ⟨"RX", [0], [true]⟩ ⟨"RX", [0], [false]⟩ 0
      (by decide)).2.2.2 1 (by decide)⟩

/-- Claim C8: `update_node` called with a node absent from the graph
raises the not-found error and never succeeds silently, so the graph is
left unchanged. -/
theorem claim_C8_update_node_missing :
    ∀ (c : CircuitGraph) (old nop : Op), old ∉ c.queue →
      update_node c old nop =
        Except.error "CircuitGraph.update_node: node to update is not in the graph" ∧
      ∀ c', update_node c old nop ≠ Except.ok c' := by
  intro c old nop h
  have hidx := idxOf?_none h
  constructor
  · unfold update_node
    rw [hidx]
  · intro c' hc'
    unfold update_node at hc'
    rw [hidx] at hc'
    exact Except.noConfusion hc'

/-- Claim C8 witness: updating a gate that is not in the reference
circuit fails with the not-found error. -/
theorem claim_C8_witness :
    update_node refCircuit ⟨"Ghost", [0], []⟩ ⟨"RX", [0], [true]⟩ =
      Except.error "CircuitGraph.update_node: node to update is not in the graph" :=
  (claim_C8_update_node_missing refCircuit ⟨"Ghost", [0], []⟩ ⟨"RX", [0], [true]⟩
    (by decide)).1

/-- Claim C10: for every object whose `generator` yields `(gen, coeff)`
with a square matrix, `extract_evals` returns a list of exactly two
arrays: the real parts of the eigenvalues of `coeff * gen.matrix`, and
their elementwise negation. -/
theorem claim_C10_extract_evals {α : Type} [Mul α] [Neg α]
    (eigvals : List (List α) → List (α × α)) (obj : GenObj α)
    (_hsq : isSquare obj.generator.1.matrix) :
    (extract_evals eigvals obj).length = 2 ∧
    (extract_evals eigvals obj).get? 0 =
      some ((eigvals (scaleMatrix obj.generator.2 obj.generator.1.matrix)).map
        Prod.fst) ∧
    (extract_evals eigvals obj).get? 1 =
      ((extract_evals eigvals obj).get? 0).map (List.map Neg.neg) :=
  ⟨rfl, rfl, rfl⟩

/-- Claim C10 witness: a concrete 2-by-2 integer matrix with coefficient 2
and a concrete eigenvalue oracle. -/
theorem claim_C10_witness :
    isSquare ([[(0 : Int), 1], [1, 0]]) ∧
    (extract_evals (fun _ => [((2 : Int), 0), (-2, 0)])
      ⟨(⟨[[0, 1], [1, 0]]⟩, 2)⟩).length = 2 :=
  ⟨by decide,
   (claim_C10_extract_evals (fun _ => [((2 : Int), 0), (-2, 0)])
     ⟨(⟨[[0, 1], [1, 0]]⟩, 2)⟩ (by decide)).1⟩
